import Mathlib

/-!
Verification development for a parallel Mandelbrot renderer (Rust, `src/main.rs`).

The numeric model is two-level.  Machine integers (`usize`, `u64`, `u8`) are
`ℕ`; the `f64` per-lane counter of the batched evaluator only ever holds the
integers it accumulates, so it is a `ℕ` counter as well.  Floating point
values are rationals.  The evaluator loops and the raster engine are stated
over exact rational arithmetic: the structural properties proved about them
(loop bounds, escape-index characterization, buffer layout, count bounds,
concrete escape counts at inputs where every `f64` operation is exact) do
not depend on rounding.  Where a claim's content *is* the rounding — the
`f32` intensity pipeline and the `f64` preset-bounds arithmetic —
`floatRound` models IEEE-754 round-to-nearest (ties to even) bit-exactly on
the formats' normal range, and the corresponding definitions (`intensity`,
`Location.coords`) apply it to every operation as the code does.
-/

namespace Mandel

/-- A complex number as stored by `num::Complex<f64>`, modelled over `ℚ`. -/
structure Cplx where
  re : ℚ
  im : ℚ
  deriving DecidableEq, Repr

/-- `z.norm_sqr()` of `num::Complex`: squared magnitude `re² + im²`. -/
def normSqr (z : Cplx) : ℚ := z.re * z.re + z.im * z.im

/-- One Mandelbrot update `z * z + c`, as computed by `num::Complex`
multiplication: `(re² - im², re·im + im·re)` plus `c` componentwise. -/
def step (c z : Cplx) : Cplx :=
  ⟨z.re * z.re - z.im * z.im + c.re, z.re * z.im + z.im * z.re + c.im⟩

/-- The orbit `z₀ = 0`, `z_{k+1} = z_k² + c` of the scalar evaluator. -/
def orbit (c : Cplx) : ℕ → Cplx
  | 0 => ⟨0, 0⟩
  | n + 1 => step c (orbit c n)

/-- The loop of `mandelbrot_at_point`: `for i in 0..=iters { if z.norm_sqr() > 4.0
{ return i; } z = z * z + c; } iters`.  The loop performs exactly `iters + 1`
checks (`i = 0, …, iters`); `fuel` counts the checks still to be made, so the
initial call uses `fuel = iters + 1`, and when the fuel runs out the function
falls through to `iters as u64`. -/
def pointLoop (c : Cplx) (iters : ℕ) : ℕ → Cplx → ℕ → ℕ
  | _, _, 0 => iters
  | i, z, fuel + 1 =>
    if 4 < normSqr z then i else pointLoop c iters (i + 1) (step c z) fuel

/-- `mandelbrot_at_point(cx, cy, iters)` from `src/main.rs`. -/
def mandelbrot_at_point (cx cy : ℚ) (iters : ℕ) : ℕ :=
  pointLoop ⟨cx, cy⟩ iters 0 ⟨0, 0⟩ (iters + 1)

/-- A four-lane pack of complex numbers, as in
`struct Complex4 { real: f64x4, imag: f64x4 }`. -/
structure Complex4 where
  real : Fin 4 → ℚ
  imag : Fin 4 → ℚ

/-- Lane `l` of a `Complex4`, as a single complex number. -/
def lane (c : Complex4) (l : Fin 4) : Cplx := ⟨c.real l, c.imag l⟩

/-- The lane-wise z-update of `mandelbrot_at_vec`:
`z.real = rr - ii + c.real; z.imag = ri + ri + c.imag` with
`rr = z.real²`, `ii = z.imag²`, `ri = z.real * z.imag`. -/
def step4 (c z : Complex4) : Complex4 :=
  { real := fun l => z.real l * z.real l - z.imag l * z.imag l + c.real l
    imag := fun l => z.real l * z.imag l + z.real l * z.imag l + c.imag l }

/-- The loop of `mandelbrot_at_vec`: starting from `z = *c` and all-zero lane
counters, it runs at most `iters` times (`for _ in 0..iters`); each pass
computes the lane mask `rr + ii <= 4.0`, breaks when no lane is active
(`!mask.any()`), adds the mask-blended `1.0`/`0.0` to the counters, and applies
the z-update to every lane.  `fuel` is the number of passes remaining. -/
def vecLoop (c : Complex4) : Complex4 → (Fin 4 → ℕ) → ℕ → (Fin 4 → ℕ)
  | _, count, 0 => count
  | z, count, fuel + 1 =>
    if ∀ l : Fin 4, ¬ normSqr (lane z l) ≤ 4 then count
    else
      vecLoop c (step4 c z)
        (fun l => count l + if normSqr (lane z l) ≤ 4 then 1 else 0) fuel

/-- `mandelbrot_at_vec(&c, iters)` from `src/main.rs`.  The `f64` lane counters
only ever hold the integers they accumulate (bounded by `iters`), so the final
`as u64` casts are modelled by keeping the counters in `ℕ`. -/
def mandelbrot_at_vec (c : Complex4) (iters : ℕ) : Fin 4 → ℕ :=
  vecLoop c c (fun _ => 0) iters

/-- Splat one complex value into all four lanes, as `f64x4::splat` would. -/
def splat4 (cx cy : ℚ) : Complex4 := { real := fun _ => cx, imag := fun _ => cy }

lemma orbit_zero (c : Cplx) : orbit c 0 = ⟨0, 0⟩ := rfl

lemma orbit_succ (c : Cplx) (n : ℕ) : orbit c (n + 1) = step c (orbit c n) := rfl

lemma orbit_one (c : Cplx) : orbit c 1 = c := by
  show step c ⟨0, 0⟩ = c
  simp [step]

lemma normSqr_orbit_zero (c : Cplx) : normSqr (orbit c 0) = 0 := by
  simp [orbit_zero, normSqr]

/-- Behaviour of the scalar loop on the tail of the orbit: starting the loop at
check index `i` with `z = orbit c i` and `fuel = iters + 1 - i` checks left, it
returns the least escaping index in `[i, iters]` and `iters` when none exists. -/
lemma pointLoop_spec (c : Cplx) (iters : ℕ) :
    ∀ fuel i, i + fuel = iters + 1 →
      pointLoop c iters i (orbit c i) fuel ≤ iters ∧
      (∀ j, i ≤ j → j < pointLoop c iters i (orbit c i) fuel →
        ¬ 4 < normSqr (orbit c j)) ∧
      ((∃ j, i ≤ j ∧ j ≤ iters ∧ 4 < normSqr (orbit c j)) →
        4 < normSqr (orbit c (pointLoop c iters i (orbit c i) fuel))) ∧
      ((∀ j, i ≤ j → j ≤ iters → ¬ 4 < normSqr (orbit c j)) →
        pointLoop c iters i (orbit c i) fuel = iters) := by
  intro fuel
  induction fuel with
  | zero =>
    intro i hi
    constructor
    · simp [pointLoop]
    refine ⟨?_, ?_, ?_⟩
    · intro j hij hj
      simp only [pointLoop] at hj
      omega
    · rintro ⟨j, hij, hj, -⟩
      omega
    · intro _
      simp [pointLoop]
  | succ fuel ih =>
    intro i hi
    have hile : i ≤ iters := by omega
    by_cases hesc : 4 < normSqr (orbit c i)
    · have hval : pointLoop c iters i (orbit c i) (fuel + 1) = i := by
        simp [pointLoop, hesc]
      refine ⟨by omega, ?_, ?_, ?_⟩
      · intro j hij hj
        rw [hval] at hj
        omega
      · intro _
        rw [hval]
        exact hesc
      · intro hall
        exact absurd hesc (hall i le_rfl hile)
    · have hval : pointLoop c iters i (orbit c i) (fuel + 1)
          = pointLoop c iters (i + 1) (orbit c (i + 1)) fuel := by
        simp [pointLoop, hesc, orbit_succ]
      obtain ⟨hA, hB, hC, hD⟩ := ih (i + 1) (by omega)
      rw [hval]
      refine ⟨hA, ?_, ?_, ?_⟩
      · intro j hij hj
        rcases Nat.eq_or_lt_of_le hij with h | h
        · rw [← h]; exact hesc
        · exact hB j h hj
      · rintro ⟨j, hij, hj, hjesc⟩
        have hij' : i + 1 ≤ j := by
          rcases Nat.eq_or_lt_of_le hij with h | h
          · exact absurd (h ▸ hjesc) hesc
          · omega
        exact hC ⟨j, hij', hj, hjesc⟩
      · intro hall
        exact hD fun j hj hj' => hall j (by omega) hj'

/-- `mandelbrot_at_point` returns the least index `i ≤ iters` whose orbit point
escapes, and `iters` when none does. -/
lemma mandelbrot_at_point_spec (cx cy : ℚ) (iters : ℕ) :
    mandelbrot_at_point cx cy iters ≤ iters ∧
    (∀ j, j < mandelbrot_at_point cx cy iters →
      ¬ 4 < normSqr (orbit ⟨cx, cy⟩ j)) ∧
    ((∃ j, j ≤ iters ∧ 4 < normSqr (orbit ⟨cx, cy⟩ j)) →
      4 < normSqr (orbit ⟨cx, cy⟩ (mandelbrot_at_point cx cy iters))) ∧
    ((∀ j, j ≤ iters → ¬ 4 < normSqr (orbit ⟨cx, cy⟩ j)) →
      mandelbrot_at_point cx cy iters = iters) := by
  have h := pointLoop_spec ⟨cx, cy⟩ iters (iters + 1) 0 (by omega)
  simp only [orbit_zero] at h
  obtain ⟨hA, hB, hC, hD⟩ := h
  refine ⟨hA, fun j hj => hB j (Nat.zero_le j) hj, ?_, ?_⟩
  · rintro ⟨j, hj, hjesc⟩
    exact hC ⟨j, Nat.zero_le j, hj, hjesc⟩
  · intro hall
    exact hD fun j _ hj => hall j hj

/-- Arithmetic core of escape monotonicity.  With `S = |z|²`, `C = |c|²` and
`R = Re(z² · conj c)`, one has `|z² + c|² = S² + 2R + C`; given `S > 4`,
`C ≤ S` and the Cauchy-Schwarz bound `R² ≤ S²·C`, the new squared magnitude
again exceeds `4` and again dominates `C`. -/
lemma escape_core (S C R : ℚ) (hS : 4 < S) (hC0 : 0 ≤ C) (hCS : C ≤ S)
    (hR : R * R ≤ S * S * C) :
    4 < S * S + 2 * R + C ∧ C ≤ S * S + 2 * R + C := by
  have hSS : (0 : ℚ) ≤ S * S := mul_self_nonneg S
  have h1 : 4 * C ≤ S * S := by nlinarith
  have h4C : 4 * (S * S * C) ≤ S * S * (S * S) := by
    nlinarith [mul_le_mul_of_nonneg_left h1 hSS]
  constructor
  · rcases le_or_lt 0 R with hR0 | hR0
    · nlinarith
    · have hpos : 0 < S * S + C - 4 := by nlinarith
      have hkey : 4 * (S * S * C) < (S * S + C - 4) * (S * S + C - 4) := by
        have e2 : (S * S - S) * (S * S - S) ≤ (S * S - C) * (S * S - C) := by
          nlinarith [mul_nonneg (show (0 : ℚ) ≤ (S * S - C) - (S * S - S) by linarith)
            (show (0 : ℚ) ≤ (S * S - C) + (S * S - S) by nlinarith)]
        have e4 : 0 < (S - 4) * (S * S * S + 2 * (S * S) + S - 4) :=
          mul_pos (by linarith) (by nlinarith)
        nlinarith
      have hsq : (-(2 * R)) * (-(2 * R)) < (S * S + C - 4) * (S * S + C - 4) := by
        nlinarith
      nlinarith
  · nlinarith
/-- One-step escape preservation: if `|z|² > 4` and `|c|² ≤ |z|²` then the
updated point `z² + c` again satisfies both bounds. -/
lemma escape_step (c z : Cplx) (h4 : 4 < normSqr z) (hc : normSqr c ≤ normSqr z) :
    4 < normSqr (step c z) ∧ normSqr c ≤ normSqr (step c z) := by
  obtain ⟨a, b⟩ := z
  obtain ⟨p, q⟩ := c
  simp only [normSqr, step] at h4 hc ⊢
  have hexp : (a * a - b * b + p) * (a * a - b * b + p)
        + (a * b + b * a + q) * (a * b + b * a + q)
      = (a * a + b * b) * (a * a + b * b)
        + 2 * ((a * a - b * b) * p + (a * b + b * a) * q) + (p * p + q * q) := by
    ring
  have hid : (a * a + b * b) * (a * a + b * b) * (p * p + q * q)
      = ((a * a - b * b) * p + (a * b + b * a) * q)
          * ((a * a - b * b) * p + (a * b + b * a) * q)
        + ((a * a - b * b) * q - (a * b + b * a) * p)
          * ((a * a - b * b) * q - (a * b + b * a) * p) := by
    ring
  have hCS : ((a * a - b * b) * p + (a * b + b * a) * q)
        * ((a * a - b * b) * p + (a * b + b * a) * q)
      ≤ (a * a + b * b) * (a * a + b * b) * (p * p + q * q) := by
    nlinarith [mul_self_nonneg ((a * a - b * b) * q - (a * b + b * a) * p)]
  have hC0 : (0 : ℚ) ≤ p * p + q * q :=
    add_nonneg (mul_self_nonneg p) (mul_self_nonneg q)
  have hcore := escape_core (a * a + b * b) (p * p + q * q)
    ((a * a - b * b) * p + (a * b + b * a) * q) h4 hC0 hc hCS
  rw [hexp]
  exact hcore

/-- Escape monotonicity along the orbit: once an orbit point has squared
magnitude above `4`, every later orbit point does too. -/
lemma escapes_mono (c : Cplx) {j m : ℕ} (hj : 4 < normSqr (orbit c j))
    (hjm : j ≤ m) : 4 < normSqr (orbit c m) := by
  have hex : ∃ n, 4 < normSqr (orbit c n) := ⟨j, hj⟩
  classical
  set k := Nat.find hex with hkdef
  have hk : 4 < normSqr (orbit c k) := Nat.find_spec hex
  have hkj : k ≤ j := Nat.find_min' hex hj
  have hmin : ∀ n, n < k → ¬ 4 < normSqr (orbit c n) := fun n hn => Nat.find_min hex hn
  have hk0 : k ≠ 0 := by
    intro h0
    rw [h0, normSqr_orbit_zero] at hk
    norm_num at hk
  have hkc : normSqr c ≤ normSqr (orbit c k) := by
    rcases Nat.lt_or_ge 1 k with h1 | h1
    · have := hmin 1 h1
      rw [orbit_one] at this
      push_neg at this
      linarith
    · have hk1 : k = 1 := by omega
      rw [hk1, orbit_one]
  have hinv : ∀ n, k ≤ n → 4 < normSqr (orbit c n) ∧ normSqr c ≤ normSqr (orbit c n) := by
    intro n hn
    induction n, hn using Nat.le_induction with
    | base => exact ⟨hk, hkc⟩
    | succ n hn ih =>
      rw [orbit_succ]
      exact escape_step c (orbit c n) ih.1 ih.2
  exact (hinv m (le_trans hkj hjm)).1
/-- The z-state of the batched loop before pass `k`: it starts at `*c` and is
updated uniformly on all lanes each pass. -/
def vecOrbit (c : Complex4) : ℕ → Complex4
  | 0 => c
  | k + 1 => step4 c (vecOrbit c k)

/-- Lane `l` of the batched loop's z-state before pass `k`. -/
def laneOrbit (c : Complex4) (l : Fin 4) (k : ℕ) : Cplx := lane (vecOrbit c k) l

lemma lane_step4 (c z : Complex4) (l : Fin 4) :
    lane (step4 c z) l = step (lane c l) (lane z l) := by
  simp only [lane, step4, step, Cplx.mk.injEq, true_and]
  ring

/-- Lane `l` of the batched z-state before pass `k` is the scalar orbit point
`z_{k+1}` of that lane's coordinate (the batched loop starts at `z = c = z₁`). -/
lemma laneOrbit_eq_orbit (c : Complex4) (l : Fin 4) :
    ∀ k, laneOrbit c l k = orbit (lane c l) (k + 1) := by
  intro k
  induction k with
  | zero =>
    show lane c l = orbit (lane c l) 1
    rw [orbit_one]
  | succ k ih =>
    show lane (step4 c (vecOrbit c k)) l = orbit (lane c l) (k + 2)
    rw [lane_step4, orbit_succ]
    exact congrArg (step (lane c l)) ih

/-- The batched loop adds, to each lane counter, one unit for every remaining
pass whose lane mask is true; the early `break` only skips passes on which
every lane mask is false, which by escape monotonicity contribute nothing. -/
lemma vecLoop_spec (c : Complex4) :
    ∀ fuel s count, vecLoop c (vecOrbit c s) count fuel
      = fun l => count l
          + ∑ j ∈ Finset.range fuel,
              if normSqr (laneOrbit c l (s + j)) ≤ 4 then 1 else 0 := by
  intro fuel
  induction fuel with
  | zero =>
    intro s count
    funext l
    simp [vecLoop]
  | succ fuel ih =>
    intro s count
    by_cases hall : ∀ l : Fin 4, ¬ normSqr (lane (vecOrbit c s) l) ≤ 4
    · have hval : vecLoop c (vecOrbit c s) count (fuel + 1) = count := by
        simp [vecLoop, hall]
      rw [hval]
      funext l
      have hzero : ∀ j ∈ Finset.range (fuel + 1),
          (if normSqr (laneOrbit c l (s + j)) ≤ 4 then 1 else 0) = 0 := by
        intro j _
        have hs : 4 < normSqr (orbit (lane c l) (s + 1)) := by
          have := hall l
          rw [show lane (vecOrbit c s) l = laneOrbit c l s from rfl,
            laneOrbit_eq_orbit] at this
          push_neg at this
          exact this
        have : 4 < normSqr (orbit (lane c l) (s + j + 1)) :=
          escapes_mono _ hs (by omega)
        rw [laneOrbit_eq_orbit]
        simp only [if_neg (not_le.mpr this)]
      rw [Finset.sum_congr rfl hzero]
      simp
    · have hval : vecLoop c (vecOrbit c s) count (fuel + 1)
          = vecLoop c (vecOrbit c (s + 1))
              (fun l => count l + if normSqr (lane (vecOrbit c s) l) ≤ 4 then 1 else 0)
              fuel := by
        simp only [vecLoop, if_neg hall]
        rfl
      rw [hval, ih]
      funext l
      rw [Finset.sum_range_succ']
      have harg : ∀ j : ℕ, s + 1 + j = s + (j + 1) := fun j => by omega
      simp only [harg]
      have hmask : (if normSqr (lane (vecOrbit c s) l) ≤ 4 then 1 else 0)
          = if normSqr (laneOrbit c l (s + 0)) ≤ 4 then 1 else 0 := by
        rfl
      rw [hmask]
      omega

/-- Per-lane value of `mandelbrot_at_vec`: the number of passes `j < iters` on
which lane `l` was still active (its z-value `laneOrbit c l j` not escaped). -/
lemma mandelbrot_at_vec_eq (c : Complex4) (iters : ℕ) (l : Fin 4) :
    mandelbrot_at_vec c iters l
      = ∑ j ∈ Finset.range iters,
          if normSqr (laneOrbit c l j) ≤ 4 then 1 else 0 := by
  have h := vecLoop_spec c iters 0 (fun _ => 0)
  have h0 : vecOrbit c 0 = c := rfl
  rw [h0] at h
  show vecLoop c c (fun _ => 0) iters l = _
  rw [h]
  simp

lemma sum_range_if_lt (k : ℕ) : ∀ n, (∑ j ∈ Finset.range n,
    if j < k then (1 : ℕ) else 0) = min k n := by
  intro n
  induction n with
  | zero => simp
  | succ n ih =>
    rw [Finset.sum_range_succ, ih]
    split <;> omega
/-- C3: for every coordinate `c = (cx, cy)` and budget `N`, `mandelbrot_at_point`
returns the smallest index `i ∈ [0, N]` whose orbit point `z_i` (with `z₀ = 0`,
`z_{k+1} = z_k² + c`) has squared magnitude greater than `4`, and returns `N`
when no index up to `N` escapes; in particular budget `N = 0` returns `0`. -/
theorem mandelbrot_at_point_escape_index (cx cy : ℚ) (N : ℕ) :
    mandelbrot_at_point cx cy N ≤ N ∧
    (∀ j, j < mandelbrot_at_point cx cy N → normSqr (orbit ⟨cx, cy⟩ j) ≤ 4) ∧
    ((∃ i, i ≤ N ∧ 4 < normSqr (orbit ⟨cx, cy⟩ i)) →
      4 < normSqr (orbit ⟨cx, cy⟩ (mandelbrot_at_point cx cy N))) ∧
    ((∀ i, i ≤ N → normSqr (orbit ⟨cx, cy⟩ i) ≤ 4) →
      mandelbrot_at_point cx cy N = N) ∧
    mandelbrot_at_point cx cy 0 = 0 := by
  obtain ⟨hA, hB, hC, hD⟩ := mandelbrot_at_point_spec cx cy N
  refine ⟨hA, fun j hj => not_lt.mp (hB j hj), hC,
    fun hall => hD fun j hj => not_lt.mpr (hall j hj), ?_⟩
  obtain ⟨hA0, hB0, hC0, hD0⟩ := mandelbrot_at_point_spec cx cy 0
  omega

/-- Witness for C3 at `c = (1, 1)`, `N = 5` (escape happens at index 2). -/
theorem mandelbrot_at_point_escape_index_witness :
    mandelbrot_at_point 1 1 5 ≤ 5 ∧
    4 < normSqr (orbit ⟨1, 1⟩ (mandelbrot_at_point 1 1 5)) := by
  obtain ⟨hA, hB, hC, hD, hE⟩ := mandelbrot_at_point_escape_index 1 1 5
  refine ⟨hA, hC ⟨2, by norm_num, ?_⟩⟩
  norm_num [orbit, step, normSqr]
lemma orbit_neg_two (c : Cplx) (hc : c = ⟨-2, 0⟩) :
    ∀ i, orbit c i = ⟨0, 0⟩ ∨ orbit c i = ⟨-2, 0⟩ ∨ orbit c i = ⟨2, 0⟩ := by
  intro i
  induction i with
  | zero => left; rfl
  | succ i ih =>
    rcases ih with h | h | h <;>
      rw [orbit_succ, h, hc] <;> simp [step] <;> norm_num

/-- C2 counterexample: the claim says `mandelbrot_at_point` returns count `1`
for `c = (-2, 0)` at every budget `N ≥ 1`; at `N = 2` it returns `2`, because
the orbit `0, -2, 2, 2, …` has squared magnitude at most `4` forever and the
strict test `|z|² > 4` never fires. -/
theorem point_ref_table_counterexample :
    mandelbrot_at_point (-2) 0 2 = 2 ∧ (2 : ℕ) ≠ 1 := by
  constructor
  · norm_num [mandelbrot_at_point, pointLoop, step, normSqr]
  · omega

/-- C2 (amended): `mandelbrot_at_point` returns count `N` for `c = (-2.0, 0.0)`
for every budget `N ≥ 1` (so count `1` exactly when `N = 1`: the orbit never
escapes the strict `> 4` test), and count `2` for `c = (1.0, 1.0)` for every
budget `N ≥ 2`. -/
theorem point_ref_table (N : ℕ) :
    (1 ≤ N → mandelbrot_at_point (-2) 0 N = N) ∧
    (2 ≤ N → mandelbrot_at_point 1 1 N = 2) := by
  constructor
  · intro _
    obtain ⟨-, -, -, hD, -⟩ := mandelbrot_at_point_escape_index (-2) 0 N
    apply hD
    intro i _
    rcases orbit_neg_two ⟨-2, 0⟩ rfl i with h | h | h <;> rw [h] <;>
      norm_num [normSqr]
  · intro hN
    obtain ⟨M, rfl⟩ : ∃ M, N = M + 2 := ⟨N - 2, by omega⟩
    show pointLoop ⟨1, 1⟩ (M + 2) 0 ⟨0, 0⟩ (M + 2 + 1) = 2
    rw [show M + 2 + 1 = M + 1 + 1 + 1 from rfl]
    norm_num [pointLoop, step, normSqr]

/-- Witness for C2's amended statement at `N = 3`. -/
theorem point_ref_table_witness :
    mandelbrot_at_point (-2) 0 3 = 3 ∧ mandelbrot_at_point 1 1 3 = 2 := by
  obtain ⟨h1, h2⟩ := point_ref_table 3
  exact ⟨h1 (by norm_num), h2 (by norm_num)⟩
/-- C1 (code bug): the two evaluators disagree.  With all four lanes at
`c = (1.0, 1.0)` and budget `N = 10`, `mandelbrot_at_vec` returns count `1`
for every lane while `mandelbrot_at_point (1, 1, 10)` returns `2`: the batched
loop starts its orbit at `z = c` and counts the passes with `|z|² ≤ 4`, while
the scalar loop starts at `z = 0` and returns the index of the first escaping
check, which is one larger whenever the point escapes within budget. -/
theorem vec_scalar_divergence :
    mandelbrot_at_vec (splat4 1 1) 10 0 = 1 ∧ mandelbrot_at_point 1 1 10 = 2 := by
  constructor
  · norm_num [mandelbrot_at_vec, vecLoop, step4, splat4, lane, normSqr,
      Fin.forall_fin_succ]
  · norm_num [mandelbrot_at_point, pointLoop, step, normSqr]

/-- Mask freeze in the exact-arithmetic model of `mandelbrot_at_vec`: once
lane `l`'s squared magnitude first exceeds `4` (at pass `k`, its mask turning
false), the mask stays false on every later pass even though the z-update
keeps being applied, and the lane's counter is never incremented again: for
every budget the returned count is exactly `min k iters`.  This is a lemma
about the exact-rational model only: under `f64` rounding the comparison
`rr + ii ≤ 4.0` at the threshold boundary is not covered by this argument. -/
theorem vec_lane_mask_freeze_exact (c : Complex4) (l : Fin 4) (k : ℕ)
    (hbefore : ∀ j, j < k → normSqr (laneOrbit c l j) ≤ 4)
    (hk : 4 < normSqr (laneOrbit c l k)) :
    (∀ m, k ≤ m → 4 < normSqr (laneOrbit c l m)) ∧
    (∀ iters, mandelbrot_at_vec c iters l = min k iters) := by
  have hmono : ∀ m, k ≤ m → 4 < normSqr (laneOrbit c l m) := by
    intro m hm
    rw [laneOrbit_eq_orbit]
    rw [laneOrbit_eq_orbit] at hk
    exact escapes_mono _ hk (by omega)
  refine ⟨hmono, fun iters => ?_⟩
  rw [mandelbrot_at_vec_eq]
  have hmask : ∀ j ∈ Finset.range iters,
      (if normSqr (laneOrbit c l j) ≤ 4 then (1 : ℕ) else 0)
        = if j < k then 1 else 0 := by
    intro j _
    by_cases hj : j < k
    · rw [if_pos (hbefore j hj), if_pos hj]
    · rw [if_neg (not_le.mpr (hmono j (by omega))), if_neg hj]
  rw [Finset.sum_congr rfl hmask, sum_range_if_lt]

/-- Instance of the exact-model mask freeze: all lanes at `c = (1, 1)`, first
escape at pass `k = 1`; the mask is false at pass `2` and the count with
budget `10` is `1`. -/
theorem vec_lane_mask_freeze_exact_instance :
    4 < normSqr (laneOrbit (splat4 1 1) 0 2) ∧
    mandelbrot_at_vec (splat4 1 1) 10 0 = min 1 10 := by
  have h := vec_lane_mask_freeze_exact (splat4 1 1) 0 1
    (by
      intro j hj
      have hj0 : j = 0 := by omega
      subst hj0
      norm_num [laneOrbit, vecOrbit, splat4, lane, normSqr])
    (by norm_num [laneOrbit, vecOrbit, splat4, lane, step4, normSqr])
  exact ⟨h.1 2 (by norm_num), h.2 10⟩
/-- Round to the nearest integer, ties to even: the significand rounding of
IEEE-754 round-to-nearest, which every Rust `f32`/`f64` arithmetic operation
applies to its exact result. -/
def roundHalfEven (q : ℚ) : ℤ :=
  if q - ⌊q⌋ < 1/2 then ⌊q⌋
  else if 1/2 < q - ⌊q⌋ then ⌊q⌋ + 1
  else if 2 ∣ ⌊q⌋ then ⌊q⌋ else ⌊q⌋ + 1

/-- The IEEE-754 binary float with a `P`-bit significand nearest to `x`
(round to nearest, ties to even), as an exact rational: `x` is scaled into
the significand range `[2^(P-1), 2^P)`, rounded to an integer significand,
and scaled back.  `P = 24` models Rust `f32`, `P = 53` models `f64`.  The
model is exact on the whole normal range of the format; overflow and
subnormal underflow are not modelled (no value in this development reaches
either). -/
def floatRound (P : ℕ) (x : ℚ) : ℚ :=
  if x = 0 then 0
  else
    (if x < 0 then -1 else 1)
      * ((roundHalfEven (|x| / 2 ^ (Int.log 2 |x| - ((P : ℤ) - 1))) : ℚ)
          * 2 ^ (Int.log 2 |x| - ((P : ℤ) - 1)))

lemma roundHalfEven_intCast (m : ℤ) : roundHalfEven (m : ℚ) = m := by
  rw [roundHalfEven, Int.floor_intCast]
  norm_num

lemma roundHalfEven_add_of_lt (m : ℤ) (h : ℚ) (h0 : 0 ≤ h) (h1 : h < 1/2) :
    roundHalfEven ((m : ℚ) + h) = m := by
  have hf : ⌊(m : ℚ) + h⌋ = m := by
    have hh : ⌊h⌋ = 0 := Int.floor_eq_zero_iff.mpr ⟨h0, by linarith⟩
    rw [add_comm, Int.floor_add_int, hh, zero_add]
  rw [roundHalfEven, hf]
  have harg : (m : ℚ) + h - (m : ℤ) = h := by push_cast; ring
  rw [harg, if_pos h1]

lemma roundHalfEven_sub_of_lt (m : ℤ) (h : ℚ) (h0 : 0 < h) (h1 : h < 1/2) :
    roundHalfEven ((m : ℚ) - h) = m := by
  have hf : ⌊(m : ℚ) - h⌋ = m - 1 := by
    rw [Int.floor_eq_iff]
    constructor <;> push_cast <;> linarith
  rw [roundHalfEven, hf]
  have harg : (m : ℚ) - h - ((m - 1 : ℤ) : ℚ) = 1 - h := by push_cast; ring
  rw [harg, if_neg (by linarith), if_pos (by linarith)]
  omega

lemma roundHalfEven_tie_odd (m : ℤ) (hm : ¬ 2 ∣ m) :
    roundHalfEven ((m : ℚ) + 1/2) = m + 1 := by
  have hf : ⌊(m : ℚ) + 1/2⌋ = m := by
    have hh : ⌊(1/2 : ℚ)⌋ = 0 := by norm_num
    rw [add_comm, Int.floor_add_int, hh, zero_add]
  rw [roundHalfEven, hf]
  have harg : (m : ℚ) + 1/2 - (m : ℤ) = 1/2 := by push_cast; ring
  rw [harg, if_neg (by norm_num), if_neg (by norm_num), if_neg hm]

lemma roundHalfEven_bounds (q : ℚ) :
    ⌊q⌋ ≤ roundHalfEven q ∧ roundHalfEven q ≤ ⌊q⌋ + 1 := by
  rw [roundHalfEven]
  split_ifs <;> omega

lemma abs_roundHalfEven_sub (q : ℚ) : |(roundHalfEven q : ℚ) - q| ≤ 1/2 := by
  have h1 : ((⌊q⌋ : ℤ) : ℚ) ≤ q := Int.floor_le q
  have h2 : q < ⌊q⌋ + 1 := Int.lt_floor_add_one q
  rw [roundHalfEven]
  split_ifs with ha hb hc <;> rw [abs_le] <;> constructor <;> push_cast <;>
    push_cast at h1 h2 <;> linarith

lemma floatRound_zero (P : ℕ) : floatRound P 0 = 0 := by
  rw [floatRound, if_pos rfl]

/-- Evaluation of `floatRound` on a positive input whose binade is known:
with `2^(e+P-1) ≤ x < 2^(e+P)`, the rounded value is the significand
`roundHalfEven (x / 2^e)` scaled back by `2^e`. -/
lemma floatRound_pos_eq (P : ℕ) (x : ℚ) (e : ℤ)
    (h1 : (2:ℚ) ^ (e + ((P : ℤ) - 1)) ≤ x) (h2 : x < (2:ℚ) ^ (e + (P : ℤ))) :
    floatRound P x = (roundHalfEven (x / 2 ^ e) : ℚ) * 2 ^ e := by
  have hx : 0 < x := lt_of_lt_of_le (zpow_pos (by norm_num) _) h1
  have hlog : Int.log 2 x = e + ((P : ℤ) - 1) := by
    have hle : e + ((P : ℤ) - 1) ≤ Int.log 2 x :=
      (Int.zpow_le_iff_le_log (by norm_num) hx).mp (by simpa using h1)
    have hlt : Int.log 2 x < e + (P : ℤ) :=
      (Int.lt_zpow_iff_log_lt (by norm_num) hx).mp (by simpa using h2)
    omega
  rw [floatRound, if_neg (ne_of_gt hx), if_neg (not_lt.mpr hx.le),
    abs_of_pos hx, hlog, one_mul]
  have he : e + ((P : ℤ) - 1) - ((P : ℤ) - 1) = e := by ring
  rw [he]

/-- Representable values are fixed points of rounding: any `m · 2^e` with
`m` in the significand range is returned unchanged. -/
lemma floatRound_fixed (P : ℕ) (m : ℤ) (e : ℤ)
    (h1 : (2:ℚ) ^ ((P : ℤ) - 1) ≤ (m : ℚ)) (h2 : (m : ℚ) < (2:ℚ) ^ (P : ℤ)) :
    floatRound P ((m : ℚ) * 2 ^ e) = (m : ℚ) * 2 ^ e := by
  have h2e : (0:ℚ) < 2 ^ e := zpow_pos (by norm_num) e
  have hb1 : (2:ℚ) ^ (e + ((P : ℤ) - 1)) ≤ (m : ℚ) * 2 ^ e := by
    rw [zpow_add₀ (two_ne_zero), mul_comm ((2:ℚ) ^ e)]
    exact mul_le_mul_of_nonneg_right h1 h2e.le
  have hb2 : (m : ℚ) * 2 ^ e < (2:ℚ) ^ (e + (P : ℤ)) := by
    rw [zpow_add₀ (two_ne_zero), mul_comm ((2:ℚ) ^ e)]
    exact mul_lt_mul_of_pos_right h2 h2e
  rw [floatRound_pos_eq P _ e hb1 hb2]
  have hq : (m : ℚ) * 2 ^ e / 2 ^ e = (m : ℚ) := by
    field_simp
  rw [hq, roundHalfEven_intCast]

/-- Every positive rounded value is a significand in `[2^(P-1), 2^P)` times a
power of two. -/
lemma floatRound_pos_bracket (P : ℕ) (x : ℚ) (hx : 0 < x) (hP : 1 ≤ P) :
    ∃ m : ℤ, ∃ e : ℤ, floatRound P x = (m : ℚ) * 2 ^ e ∧
      (2:ℚ) ^ ((P : ℤ) - 1) ≤ (m : ℚ) ∧ (m : ℚ) < (2:ℚ) ^ (P : ℤ) := by
  set E : ℤ := Int.log 2 x - ((P : ℤ) - 1) with hE
  have hcast2 : ((2 : ℕ) : ℚ) = (2 : ℚ) := by norm_num
  have h1 : (2:ℚ) ^ (E + ((P : ℤ) - 1)) ≤ x := by
    have h := Int.zpow_log_le_self (b := 2) (by norm_num) hx
    rw [hcast2] at h
    have : E + ((P : ℤ) - 1) = Int.log 2 x := by rw [hE]; ring
    rwa [this]
  have h2 : x < (2:ℚ) ^ (E + (P : ℤ)) := by
    have h := Int.lt_zpow_succ_log_self (b := 2) (by norm_num) x
    rw [hcast2] at h
    have : E + (P : ℤ) = Int.log 2 x + 1 := by rw [hE]; ring
    rwa [this]
  have hfe := floatRound_pos_eq P x E h1 h2
  have h2E : (0:ℚ) < 2 ^ E := zpow_pos (by norm_num) E
  set q : ℚ := x / 2 ^ E with hq
  have hql : (2:ℚ) ^ ((P : ℤ) - 1) ≤ q := by
    rw [hq, le_div_iff₀ h2E, ← zpow_add₀ (two_ne_zero)]
    have : (P : ℤ) - 1 + E = E + ((P : ℤ) - 1) := by ring
    rw [this]
    exact h1
  have hqu : q < (2:ℚ) ^ (P : ℤ) := by
    rw [hq, div_lt_iff₀ h2E, ← zpow_add₀ (two_ne_zero)]
    have : (P : ℤ) + E = E + (P : ℤ) := by ring
    rw [this]
    exact h2
  set K : ℤ := 2 ^ (P - 1 : ℕ) with hK
  have hKcast : ((K : ℤ) : ℚ) = (2:ℚ) ^ ((P : ℤ) - 1) := by
    rw [hK]
    push_cast
    rw [← zpow_natCast (2:ℚ) (P - 1)]
    congr 1
    omega
  have hfl : K ≤ ⌊q⌋ := Int.le_floor.mpr (by rw [hKcast]; exact hql)
  have hfu : ⌊q⌋ < 2 * K := by
    rw [Int.floor_lt]
    have h2K : ((2 * K : ℤ) : ℚ) = (2:ℚ) ^ (P : ℤ) := by
      rw [hK]
      push_cast
      rw [← zpow_natCast (2:ℚ) (P - 1)]
      rw [← zpow_one_add₀ (two_ne_zero : (2:ℚ) ≠ 0)]
      congr 1
      omega
    rw [h2K]
    exact hqu
  obtain ⟨hr1, hr2⟩ := roundHalfEven_bounds q
  rcases lt_or_eq_of_le (by omega : roundHalfEven q ≤ 2 * K) with hlt | heq
  · refine ⟨roundHalfEven q, E, hfe, ?_, ?_⟩
    · rw [← hKcast]
      exact_mod_cast (by omega : K ≤ roundHalfEven q)
    · have h2K : ((2 * K : ℤ) : ℚ) = (2:ℚ) ^ (P : ℤ) := by
        rw [hK]
        push_cast
        rw [← zpow_natCast (2:ℚ) (P - 1)]
        rw [← zpow_one_add₀ (two_ne_zero : (2:ℚ) ≠ 0)]
        congr 1
        omega
      rw [← h2K]
      exact_mod_cast hlt
  · refine ⟨K, E + 1, ?_, by rw [hKcast], ?_⟩
    · rw [hfe, heq]
      push_cast
      rw [zpow_add₀ (two_ne_zero : (2:ℚ) ≠ 0) E 1]
      ring
    · rw [hKcast]
      exact zpow_lt_zpow_right₀ (by norm_num) (by omega)

lemma floatRound_neg (P : ℕ) (x : ℚ) : floatRound P (-x) = -floatRound P x := by
  rcases eq_or_ne x 0 with rfl | hx
  · simp [floatRound]
  · rw [floatRound, floatRound, if_neg (neg_ne_zero.mpr hx), if_neg hx, abs_neg]
    rcases lt_or_gt_of_ne hx with h | h
    · rw [if_neg (not_lt.mpr (by linarith : (0:ℚ) ≤ -x)), if_pos h]
      ring
    · rw [if_pos (by linarith : -x < 0), if_neg (not_lt.mpr h.le)]
      ring

/-- Rounding a positive value changes it by at most half an ulp, i.e. by a
relative error of at most `2^(-P)`. -/
lemma floatRound_err (P : ℕ) (x : ℚ) (hx : 0 < x) :
    |floatRound P x - x| ≤ x * (2:ℚ) ^ (-(P : ℤ)) := by
  obtain ⟨E, hE⟩ : ∃ E : ℤ, E = Int.log 2 x - ((P : ℤ) - 1) := ⟨_, rfl⟩
  have hcast2 : ((2 : ℕ) : ℚ) = (2 : ℚ) := by norm_num
  have h1 : (2:ℚ) ^ (E + ((P : ℤ) - 1)) ≤ x := by
    have h := Int.zpow_log_le_self (b := 2) (by norm_num) hx
    rw [hcast2] at h
    have he : E + ((P : ℤ) - 1) = Int.log 2 x := by rw [hE]; ring
    rwa [he]
  have h2 : x < (2:ℚ) ^ (E + (P : ℤ)) := by
    have h := Int.lt_zpow_succ_log_self (b := 2) (by norm_num) x
    rw [hcast2] at h
    have he : E + (P : ℤ) = Int.log 2 x + 1 := by rw [hE]; ring
    rwa [he]
  rw [floatRound_pos_eq P x E h1 h2]
  have h2E : (0:ℚ) < 2 ^ E := zpow_pos (by norm_num) E
  have key : |(roundHalfEven (x / 2 ^ E) : ℚ) * 2 ^ E - x|
      = |(roundHalfEven (x / 2 ^ E) : ℚ) - x / 2 ^ E| * 2 ^ E := by
    have hsplit : (roundHalfEven (x / 2 ^ E) : ℚ) * 2 ^ E - x
        = ((roundHalfEven (x / 2 ^ E) : ℚ) - x / 2 ^ E) * 2 ^ E := by
      field_simp
    rw [hsplit, abs_mul, abs_of_pos h2E]
  rw [key]
  have hb := abs_roundHalfEven_sub (x / 2 ^ E)
  have step1 : |(roundHalfEven (x / 2 ^ E) : ℚ) - x / 2 ^ E| * 2 ^ E
      ≤ 1/2 * 2 ^ E :=
    mul_le_mul_of_nonneg_right hb h2E.le
  refine le_trans step1 ?_
  have heq : (2:ℚ) ^ (E + ((P : ℤ) - 1)) * 2 ^ (-(P:ℤ)) = 1/2 * 2 ^ E := by
    rw [← zpow_add₀ (two_ne_zero : (2:ℚ) ≠ 0)]
    have he : E + ((P : ℤ) - 1) + -(P : ℤ) = -1 + E := by ring
    rw [he, zpow_add₀ (two_ne_zero : (2:ℚ) ≠ 0)]
    norm_num
  rw [← heq]
  exact mul_le_mul_of_nonneg_right h1 (zpow_nonneg (by norm_num) _)

lemma floatRound_pos_of_pos (P : ℕ) (hP : 1 ≤ P) (x : ℚ) (hx : 0 < x) :
    0 < floatRound P x := by
  have herr := (abs_le.mp (floatRound_err P x hx)).1
  have hlt : (2:ℚ) ^ (-(P:ℤ)) < 1 := by
    have h0 : (2:ℚ) ^ (0:ℤ) = 1 := zpow_zero 2
    rw [← h0]
    exact zpow_lt_zpow_right₀ (by norm_num) (by omega)
  nlinarith

/-- Multiplying a rounded value by a power of two is exact: the product is
again representable and rounding returns it unchanged. -/
lemma floatRound_scale (P : ℕ) (hP : 1 ≤ P) (x : ℚ) (hx : 0 < x) (k : ℤ) :
    floatRound P (floatRound P x * 2 ^ k) = floatRound P x * 2 ^ k := by
  obtain ⟨m, e, hfe, hm1, hm2⟩ := floatRound_pos_bracket P x hx hP
  rw [hfe, mul_assoc, ← zpow_add₀ (two_ne_zero : (2:ℚ) ≠ 0) e k]
  exact floatRound_fixed P m (e + k) hm1 hm2

/-- Adding less than half an ulp to a representable value rounds back to it. -/
lemma floatRound_add_small (P : ℕ) (m e : ℤ) (h : ℚ)
    (hm1 : (2:ℚ) ^ ((P : ℤ) - 1) ≤ (m : ℚ)) (hm2 : (m : ℚ) < (2:ℚ) ^ (P : ℤ))
    (hP : 1 ≤ P) (hh0 : 0 ≤ h) (hh : h < (2:ℚ) ^ (e - 1)) :
    floatRound P ((m : ℚ) * 2 ^ e + h) = (m : ℚ) * 2 ^ e := by
  have h2e : (0:ℚ) < 2 ^ e := zpow_pos (by norm_num) e
  have h2e1 : (2:ℚ) ^ (e - 1) = 2 ^ e / 2 := by
    rw [zpow_sub₀ (two_ne_zero : (2:ℚ) ≠ 0), zpow_one]
  have hm2' : (m : ℚ) + 1 ≤ (2:ℚ) ^ (P : ℤ) := by
    have hPz : ((2:ℚ) ^ (P : ℤ)) = ((2 ^ P : ℤ) : ℚ) := by
      push_cast
      rw [← zpow_natCast (2:ℚ) P]
    rw [hPz] at hm2 ⊢
    have hZ : m < (2 ^ P : ℤ) := by exact_mod_cast hm2
    have hZ1 : m + 1 ≤ (2 ^ P : ℤ) := hZ
    exact_mod_cast hZ1
  have hb1 : (2:ℚ) ^ (e + ((P : ℤ) - 1)) ≤ (m : ℚ) * 2 ^ e + h := by
    have hlow : (2:ℚ) ^ (e + ((P : ℤ) - 1)) ≤ (m : ℚ) * 2 ^ e := by
      rw [zpow_add₀ (two_ne_zero : (2:ℚ) ≠ 0), mul_comm ((2:ℚ) ^ e)]
      exact mul_le_mul_of_nonneg_right hm1 h2e.le
    linarith
  have hb2 : (m : ℚ) * 2 ^ e + h < (2:ℚ) ^ (e + (P : ℤ)) := by
    rw [zpow_add₀ (two_ne_zero : (2:ℚ) ≠ 0), mul_comm ((2:ℚ) ^ e)]
    have hle : ((m:ℚ) + 1) * 2 ^ e ≤ (2:ℚ) ^ (P:ℤ) * 2 ^ e :=
      mul_le_mul_of_nonneg_right hm2' h2e.le
    rw [h2e1] at hh
    nlinarith
  rw [floatRound_pos_eq P _ e hb1 hb2]
  have hq : ((m : ℚ) * 2 ^ e + h) / 2 ^ e = (m : ℚ) + h / 2 ^ e := by
    field_simp
  have hfrac1 : h / 2 ^ e < 1/2 := by
    rw [div_lt_iff₀ h2e]
    rw [h2e1] at hh
    linarith
  rw [hq, roundHalfEven_add_of_lt m _ (div_nonneg hh0 h2e.le) hfrac1]

/-- Subtracting less than half an ulp from a representable value (whose
significand is not at the bottom of its binade) rounds back to it. -/
lemma floatRound_sub_small (P : ℕ) (m e : ℤ) (h : ℚ)
    (hm1 : (2:ℚ) ^ ((P : ℤ) - 1) < (m : ℚ)) (hm2 : (m : ℚ) < (2:ℚ) ^ (P : ℤ))
    (hP : 1 ≤ P) (hh0 : 0 < h) (hh : h < (2:ℚ) ^ (e - 1)) :
    floatRound P ((m : ℚ) * 2 ^ e - h) = (m : ℚ) * 2 ^ e := by
  have h2e : (0:ℚ) < 2 ^ e := zpow_pos (by norm_num) e
  have h2e1 : (2:ℚ) ^ (e - 1) = 2 ^ e / 2 := by
    rw [zpow_sub₀ (two_ne_zero : (2:ℚ) ≠ 0), zpow_one]
  have hm1' : (2:ℚ) ^ ((P : ℤ) - 1) + 1 ≤ (m : ℚ) := by
    have hPz : ((2:ℚ) ^ ((P:ℤ) - 1)) = ((2 ^ (P - 1) : ℤ) : ℚ) := by
      push_cast
      rw [← zpow_natCast (2:ℚ) (P - 1)]
      congr 1
      omega
    rw [hPz] at hm1 ⊢
    have hZ : (2 ^ (P - 1) : ℤ) < m := by exact_mod_cast hm1
    have hZ1 : (2 ^ (P - 1) : ℤ) + 1 ≤ m := hZ
    exact_mod_cast hZ1
  have hb1 : (2:ℚ) ^ (e + ((P : ℤ) - 1)) ≤ (m : ℚ) * 2 ^ e - h := by
    rw [zpow_add₀ (two_ne_zero : (2:ℚ) ≠ 0), mul_comm ((2:ℚ) ^ e)]
    have hlow : ((2:ℚ) ^ ((P:ℤ) - 1) + 1) * 2 ^ e ≤ (m : ℚ) * 2 ^ e :=
      mul_le_mul_of_nonneg_right hm1' h2e.le
    rw [h2e1] at hh
    nlinarith
  have hb2 : (m : ℚ) * 2 ^ e - h < (2:ℚ) ^ (e + (P : ℤ)) := by
    rw [zpow_add₀ (two_ne_zero : (2:ℚ) ≠ 0), mul_comm ((2:ℚ) ^ e)]
    have hhi : (m : ℚ) * 2 ^ e < (2:ℚ) ^ (P:ℤ) * 2 ^ e :=
      mul_lt_mul_of_pos_right hm2 h2e
    linarith
  rw [floatRound_pos_eq P _ e hb1 hb2]
  have hq : ((m : ℚ) * 2 ^ e - h) / 2 ^ e = (m : ℚ) - h / 2 ^ e := by
    field_simp
  have hfrac1 : h / 2 ^ e < 1/2 := by
    rw [div_lt_iff₀ h2e]
    rw [h2e1] at hh
    linarith
  rw [hq, roundHalfEven_sub_of_lt m _ (div_pos hh0 h2e) hfrac1]

/-- The per-count intensity map of `draw_mandelbrot`:
`if x == iters { 255u8 } else { ((x as f32 / iters as f32) * 255.0) as u8 }`.
Every `f32` arithmetic step is rounded: the two integer-to-`f32` casts and the
division and product (`floatRound 24`; the literal `255.0` is exact).  The
final `as u8` cast truncates toward zero and saturates at the bounds of `u8`;
its operand is nonnegative here, so it is `⌊·⌋₊` capped at `255`.  (For
`iters = 0`, `v ≠ 0` the real cast chain gives `+∞ ↦ 255` while this model
gives `0`; every claim concerns `iters ≥ 1`, where the model is exact.) -/
def intensity (iters v : ℕ) : ℕ :=
  if v = iters then 255
  else
    min ⌊floatRound 24 (floatRound 24 (floatRound 24 (v : ℚ)
      / floatRound 24 (iters : ℚ)) * 255)⌋₊ 255

/-- Modelled from the spec: `GrayImage::from_raw(width, height, raw)` from the
external `image` crate is out of scope; per the spec the encoder "fails (signal
an error, not crash) if buffer length ≠ width×height, and otherwise persists
it".  It is modelled as returning the buffer exactly when the length matches. -/
def gray_image_from_raw (width height : ℕ) (raw : List ℕ) : Option (List ℕ) :=
  if raw.length = width * height then some raw else none

/-- `draw_mandelbrot(escaped, width, height, iters)`: maps each count through
`intensity` and hands the byte buffer to the encoder; a `None` from the
encoder becomes the recoverable error value `"Invalid raw_img size"`
(the `img.save` I/O itself is out of scope and modelled as succeeding). -/
def draw_mandelbrot (escaped : List ℕ) (width height iters : ℕ) :
    Except String (List ℕ) :=
  match gray_image_from_raw width height (escaped.map (intensity iters)) with
  | some img => Except.ok img
  | none => Except.error ("Invalid raw_img size")

/-- The reporting done by `main` on the result of `draw_mandelbrot`: both arms
`println!` a human-readable message and the process continues to a normal
exit. -/
def main_report : Except String (List ℕ) → String
  | Except.ok _ => ("Successed save image as \"image.png\"")
  | Except.error e => ("Handled error: ") ++ e

/-- C5 counterexample: the claimed identity `byte = ⌊255·v/N⌋` for `v < N`
fails on the `f32` pipeline at `N = 25165824 = 3·2²³`, `v = N - 1`: the cast
`v as f32` rounds the odd `v` up to `N` (tie to even at the 2-ulp spacing of
`f32` above `2²⁴`), the quotient becomes exactly `1.0`, and the byte comes
out `255`, while `⌊255·v/N⌋ = 254`. -/
theorem intensity_floor_counterexample :
    intensity 25165824 25165823 = 255 ∧
    255 * 25165823 / 25165824 = 254 ∧ (255 : ℕ) ≠ 254 := by
  have e1 : floatRound 24 (25165823 : ℚ) = 25165824 := by
    rw [floatRound_pos_eq 24 (25165823 : ℚ) 1 (by norm_num) (by norm_num)]
    have hq : (25165823 : ℚ) / 2 ^ (1 : ℤ) = ((12582911 : ℤ) : ℚ) + 1/2 := by
      norm_num
    rw [hq, roundHalfEven_tie_odd 12582911 (by decide)]
    norm_num
  have e2 : floatRound 24 (25165824 : ℚ) = 25165824 := by
    have h := floatRound_fixed 24 12582912 1 (by norm_num) (by norm_num)
    have harg : ((12582912 : ℤ) : ℚ) * 2 ^ (1 : ℤ) = 25165824 := by norm_num
    rwa [harg] at h
  have e3 : floatRound 24 (1 : ℚ) = 1 := by
    have h := floatRound_fixed 24 8388608 (-23) (by norm_num) (by norm_num)
    have harg : ((8388608 : ℤ) : ℚ) * 2 ^ (-23 : ℤ) = 1 := by norm_num
    rwa [harg] at h
  have e4 : floatRound 24 (255 : ℚ) = 255 := by
    have h := floatRound_fixed 24 16711680 (-16) (by norm_num) (by norm_num)
    have harg : ((16711680 : ℤ) : ℚ) * 2 ^ (-16 : ℤ) = 255 := by norm_num
    rwa [harg] at h
  refine ⟨?_, by norm_num, by norm_num⟩
  rw [intensity, if_neg (by norm_num)]
  rw [show ((25165823 : ℕ) : ℚ) = 25165823 from by norm_num,
    show ((25165824 : ℕ) : ℚ) = 25165824 from by norm_num, e1, e2,
    div_self (by norm_num : (25165824 : ℚ) ≠ 0), e3, one_mul, e4]
  norm_num

/-- C5 (amended): for every budget `N ≥ 1`, the `f32` intensity map
produces byte `255` when `v = N` and byte `0` when `v = 0`, and every
produced byte is at most `255`; the exact floor identity `⌊255·v/N⌋`
claimed for `v < N` holds only up to `f32` rounding and fails for budgets
beyond the 24-bit significand (see `intensity_floor_counterexample`). -/
theorem intensity_boundary (N v : ℕ) (hN : 1 ≤ N) :
    (v = N → intensity N v = 255) ∧
    (v = 0 → intensity N v = 0) ∧
    intensity N v ≤ 255 := by
  refine ⟨fun h => by rw [intensity, if_pos h], fun h => ?_, ?_⟩
  · subst h
    rw [intensity, if_neg (by omega)]
    rw [Nat.cast_zero, floatRound_zero, zero_div, floatRound_zero, zero_mul,
      floatRound_zero]
    simp
  · rw [intensity]
    split
    · exact le_refl 255
    · exact min_le_right _ _

/-- Witness for C5's amended statement at `N = 10`. -/
theorem intensity_boundary_witness :
    intensity 10 10 = 255 ∧ intensity 10 0 = 0 ∧ intensity 10 3 ≤ 255 :=
  ⟨(intensity_boundary 10 10 (by norm_num)).1 rfl,
   (intensity_boundary 10 0 (by norm_num)).2.1 rfl,
   (intensity_boundary 10 3 (by norm_num)).2.2⟩

/-- C8: whenever the byte buffer's length differs from `width × height`,
`draw_mandelbrot` returns the recoverable `Err` value (it does not crash), and
`main` turns that value into the printed message
`Handled error: Invalid raw_img size` rather than aborting. -/
theorem draw_mandelbrot_size_mismatch (escaped : List ℕ) (width height iters : ℕ)
    (hlen : escaped.length ≠ width * height) :
    draw_mandelbrot escaped width height iters
        = Except.error ("Invalid raw_img size") ∧
    main_report (draw_mandelbrot escaped width height iters)
        = ("Handled error: Invalid raw_img size") := by
  have hmap : (escaped.map (intensity iters)).length = escaped.length :=
    List.length_map escaped (intensity iters)
  have hdraw : draw_mandelbrot escaped width height iters
      = Except.error ("Invalid raw_img size") := by
    rw [draw_mandelbrot, gray_image_from_raw, hmap, if_neg hlen]
  exact ⟨hdraw, by rw [hdraw]; rfl⟩

/-- Witness for C8: a one-pixel image with an empty buffer. -/
theorem draw_mandelbrot_size_mismatch_witness :
    draw_mandelbrot [] 1 1 5 = Except.error ("Invalid raw_img size") ∧
    main_report (draw_mandelbrot [] 1 1 5)
      = ("Handled error: Invalid raw_img size") :=
  draw_mandelbrot_size_mismatch [] 1 1 5 (by norm_num)
/-- The `Location` subcommand enum of named preset regions. -/
inductive Location where
  | Seahorse
  | DeepSpiral
  | Elephant
  deriving DecidableEq, Repr

/-- An `f64` value or operation result: rounding to the 53-bit significand. -/
def f64 (x : ℚ) : ℚ := floatRound 53 x

/-- `Location::coords(aspect)`: plane bounds `(x_min, x_max, y_min, y_max)`
derived from the preset's fixed x-span and center height `cy`, with
`dy = dx / aspect` and the y-range `cy ± dy / 2`.  Every decimal literal is
the `f64` constant the compiler produces, and every arithmetic step
(`x_max - x_min`, `dx / aspect`, `dy / 2.0`, `cy ∓ dy / 2.0`) is rounded. -/
def Location.coords : Location → ℚ → ℚ × ℚ × ℚ × ℚ
  | Location.Seahorse, aspect =>
    let x_min := f64 (-0.7856455)
    let x_max := f64 (-0.7340665)
    let dx := f64 (x_max - x_min)
    let cy := f64 0.12554725
    let dy := f64 (dx / aspect)
    (x_min, x_max, f64 (cy - f64 (dy / 2)), f64 (cy + f64 (dy / 2)))
  | Location.DeepSpiral, aspect =>
    let x_min := f64 (-0.745538)
    let x_max := f64 (-0.743538)
    let dx := f64 (x_max - x_min)
    let cy := f64 0.121200
    let dy := f64 (dx / aspect)
    (x_min, x_max, f64 (cy - f64 (dy / 2)), f64 (cy + f64 (dy / 2)))
  | Location.Elephant, aspect =>
    let x_min := f64 0.275
    let x_max := f64 0.28
    let dx := f64 (x_max - x_min)
    let cy := f64 0.007
    let dy := f64 (dx / aspect)
    (x_min, x_max, f64 (cy - f64 (dy / 2)), f64 (cy + f64 (dy / 2)))

/-- The exact-arithmetic idealization of `Location::coords`, following the
spec's words: plane bounds from the fixed center and x-span, with
`dy = dx / aspect` and the y-range `cy ± dy / 2`, every step exact (the
spec-side definition for the amended C9, to be compared with the
`f64`-faithful `Location.coords`). -/
def Location.coordsExact : Location → ℚ → ℚ × ℚ × ℚ × ℚ
  | Location.Seahorse, aspect =>
    let x_min : ℚ := -0.7856455
    let x_max : ℚ := -0.7340665
    let dx := x_max - x_min
    let cy : ℚ := 0.12554725
    let dy := dx / aspect
    (x_min, x_max, cy - dy / 2, cy + dy / 2)
  | Location.DeepSpiral, aspect =>
    let x_min : ℚ := -0.745538
    let x_max : ℚ := -0.743538
    let dx := x_max - x_min
    let cy : ℚ := 0.121200
    let dy := dx / aspect
    (x_min, x_max, cy - dy / 2, cy + dy / 2)
  | Location.Elephant, aspect =>
    let x_min : ℚ := 0.275
    let x_max : ℚ := 0.28
    let dx := x_max - x_min
    let cy : ℚ := 0.007
    let dy := dx / aspect
    (x_min, x_max, cy - dy / 2, cy + dy / 2)

/-- Each preset's fixed vertical center `cy`. -/
def Location.center : Location → ℚ
  | Location.Seahorse => 0.12554725
  | Location.DeepSpiral => 0.121200
  | Location.Elephant => 0.007

/-- C9 counterexample: at aspect ratio `2^64` (positive and finite, and
reachable as `usize::MAX as f64 / 1.0`), the Seahorse preset's computed
half-height `dy/2 ≈ 0.05·2^-65` is far below half an ulp of the `f64`
constant `cy ≈ 0.1255`, so both rounded y-bounds `cy ∓ dy/2` collapse to
`cy` itself: the returned y-span is `0` while the claimed
`(x_max - x_min)/aspect` is positive, refuting the exact span identity. -/
theorem location_coords_span_counterexample :
    (0:ℚ) < 18446744073709551616 ∧
    (Location.Seahorse.coords 18446744073709551616).2.2.2
        - (Location.Seahorse.coords 18446744073709551616).2.2.1
      ≠ ((Location.Seahorse.coords 18446744073709551616).2.1
        - (Location.Seahorse.coords 18446744073709551616).1)
          / 18446744073709551616 := by
  refine ⟨by norm_num, ?_⟩
  have hb1 := abs_le.mp (floatRound_err 53 (0.7856455:ℚ) (by norm_num))
  have hb2 := abs_le.mp (floatRound_err 53 (0.7340665:ℚ) (by norm_num))
  have hbc := abs_le.mp (floatRound_err 53 (0.12554725:ℚ) (by norm_num))
  obtain ⟨m, e, hc0eq, hm1, hm2⟩ :=
    floatRound_pos_bracket 53 (0.12554725:ℚ) (by norm_num) (by norm_num)
  have hc0lo : (2:ℚ)^(-3:ℤ) < floatRound 53 (0.12554725:ℚ) := by
    have hs : (0.12554725:ℚ) * 2^(-53:ℤ) < 0.0000001 := by norm_num
    have h8 : (2:ℚ)^(-3:ℤ) = 1/8 := by norm_num
    linarith [hbc.1]
  have hc0hi : floatRound 53 (0.12554725:ℚ) < (2:ℚ)^(-2:ℤ) := by
    have hs : (0.12554725:ℚ) * 2^(-53:ℤ) < 0.0000001 := by norm_num
    have h4 : (2:ℚ)^(-2:ℤ) = 1/4 := by norm_num
    linarith [hbc.2]
  have h2epos : (0:ℚ) < 2 ^ e := zpow_pos (by norm_num) e
  have hm1b : (2:ℚ)^(52:ℤ) ≤ (m:ℚ) := by
    have hbr : (2:ℚ)^(((53:ℕ):ℤ)-1) = (2:ℚ)^(52:ℤ) := by norm_num
    rw [hbr] at hm1
    exact hm1
  have hm2b : (m:ℚ) < (2:ℚ)^(53:ℤ) := by
    have hbr : (2:ℚ)^((53:ℕ):ℤ) = (2:ℚ)^(53:ℤ) := by norm_num
    rw [hbr] at hm2
    exact hm2
  have he55 : e = -55 := by
    have hlow : (2:ℚ)^((52:ℤ) + e) ≤ floatRound 53 (0.12554725:ℚ) := by
      rw [hc0eq, zpow_add₀ (two_ne_zero : (2:ℚ) ≠ 0)]
      exact mul_le_mul_of_nonneg_right hm1b h2epos.le
    have hhigh : floatRound 53 (0.12554725:ℚ) < (2:ℚ)^((53:ℤ) + e) := by
      rw [hc0eq, zpow_add₀ (two_ne_zero : (2:ℚ) ≠ 0)]
      exact mul_lt_mul_of_pos_right hm2b h2epos
    have e1 : (52:ℤ) + e < -2 :=
      (zpow_lt_zpow_iff_right₀ (by norm_num : (1:ℚ) < 2)).mp
        (lt_of_le_of_lt hlow hc0hi)
    have e2 : (-3:ℤ) < 53 + e :=
      (zpow_lt_zpow_iff_right₀ (by norm_num : (1:ℚ) < 2)).mp
        (lt_trans hc0lo hhigh)
    omega
  subst he55
  have hm1strict : (2:ℚ)^(52:ℤ) < (m:ℚ) := by
    have hsplit : (2:ℚ)^(-3:ℤ) = (2:ℚ)^(52:ℤ) * (2:ℚ)^(-55:ℤ) := by
      rw [← zpow_add₀ (two_ne_zero : (2:ℚ) ≠ 0)]
      norm_num
    have hlt : (2:ℚ)^(52:ℤ) * (2:ℚ)^(-55:ℤ) < (m:ℚ) * (2:ℚ)^(-55:ℤ) := by
      rw [← hsplit, ← hc0eq]
      exact hc0lo
    exact (mul_lt_mul_right (show (0:ℚ) < 2^(-55:ℤ) by norm_num)).mp hlt
  have ha1lo : (0.785:ℚ) < floatRound 53 (0.7856455:ℚ) := by
    have hs : (0.7856455:ℚ) * 2^(-53:ℤ) < 0.0000001 := by norm_num
    linarith [hb1.1]
  have ha2hi : floatRound 53 (0.7340665:ℚ) < 0.7341 := by
    have hs : (0.7340665:ℚ) * 2^(-53:ℤ) < 0.0000001 := by norm_num
    linarith [hb2.2]
  have ha1hi : floatRound 53 (0.7856455:ℚ) < 0.786 := by
    have hs : (0.7856455:ℚ) * 2^(-53:ℤ) < 0.0000001 := by norm_num
    linarith [hb1.2]
  have ha2lo : (0.734:ℚ) < floatRound 53 (0.7340665:ℚ) := by
    have hs : (0.7340665:ℚ) * 2^(-53:ℤ) < 0.0000001 := by norm_num
    linarith [hb2.1]
  have hdiffpos : 0 < floatRound 53 (0.7856455:ℚ) - floatRound 53 (0.7340665:ℚ) := by
    linarith
  have hdiffhi : floatRound 53 (0.7856455:ℚ) - floatRound 53 (0.7340665:ℚ) < 1 := by
    linarith
  have hdxpos : 0 < floatRound 53
      (floatRound 53 (0.7856455:ℚ) - floatRound 53 (0.7340665:ℚ)) :=
    floatRound_pos_of_pos 53 (by norm_num) _ hdiffpos
  have hdxerr := abs_le.mp (floatRound_err 53 _ hdiffpos)
  have hdxlt2 : floatRound 53
      (floatRound 53 (0.7856455:ℚ) - floatRound 53 (0.7340665:ℚ)) < 2 := by
    have hs : (floatRound 53 (0.7856455:ℚ) - floatRound 53 (0.7340665:ℚ))
        * 2^(-53:ℤ) < 1 := by
      have h253 : (0:ℚ) < 2^(-53:ℤ) := by norm_num
      nlinarith
    linarith [hdxerr.2]
  have hvalpos : 0 < floatRound 53
      (floatRound 53 (0.7856455:ℚ) - floatRound 53 (0.7340665:ℚ)) * 2^(-65:ℤ) :=
    mul_pos hdxpos (by norm_num)
  have hvallt : floatRound 53
      (floatRound 53 (0.7856455:ℚ) - floatRound 53 (0.7340665:ℚ)) * 2^(-65:ℤ)
      < (2:ℚ)^((-55:ℤ)-1) := by
    have hstep : floatRound 53
        (floatRound 53 (0.7856455:ℚ) - floatRound 53 (0.7340665:ℚ)) * 2^(-65:ℤ)
        < 2 * 2^(-65:ℤ) :=
      mul_lt_mul_of_pos_right hdxlt2 (by norm_num)
    have hend : (2:ℚ) * 2^(-65:ℤ) ≤ (2:ℚ)^((-55:ℤ)-1) := by norm_num
    linarith
  have hyl : floatRound 53 ((m:ℚ) * 2^(-55:ℤ)
      - floatRound 53 (floatRound 53 (0.7856455:ℚ) - floatRound 53 (0.7340665:ℚ))
        * 2^(-65:ℤ)) = (m:ℚ) * 2^(-55:ℤ) := by
    apply floatRound_sub_small 53 m (-55) _ ?_ hm2 (by norm_num) hvalpos hvallt
    have hbr : (2:ℚ)^(((53:ℕ):ℤ)-1) = (2:ℚ)^(52:ℤ) := by norm_num
    rw [hbr]
    exact hm1strict
  have hyh : floatRound 53 ((m:ℚ) * 2^(-55:ℤ)
      + floatRound 53 (floatRound 53 (0.7856455:ℚ) - floatRound 53 (0.7340665:ℚ))
        * 2^(-65:ℤ)) = (m:ℚ) * 2^(-55:ℤ) :=
    floatRound_add_small 53 m (-55) _ hm1 hm2 (by norm_num) hvalpos.le hvallt
  have hxdiff : floatRound 53 (-0.7340665:ℚ) - floatRound 53 (-0.7856455:ℚ)
      = floatRound 53 (0.7856455:ℚ) - floatRound 53 (0.7340665:ℚ) := by
    rw [floatRound_neg, floatRound_neg]
    ring
  have hcoords : Location.Seahorse.coords 18446744073709551616
      = (floatRound 53 (-0.7856455:ℚ), floatRound 53 (-0.7340665:ℚ),
         (m:ℚ) * 2^(-55:ℤ), (m:ℚ) * 2^(-55:ℤ)) := by
    simp only [Location.coords, f64]
    rw [show floatRound 53 (-0.7340665:ℚ) - floatRound 53 (-0.7856455:ℚ)
        = floatRound 53 (0.7856455:ℚ) - floatRound 53 (0.7340665:ℚ) from hxdiff]
    rw [show floatRound 53
          (floatRound 53 (0.7856455:ℚ) - floatRound 53 (0.7340665:ℚ))
          / (18446744073709551616:ℚ)
        = floatRound 53
          (floatRound 53 (0.7856455:ℚ) - floatRound 53 (0.7340665:ℚ))
          * 2^(-64:ℤ) from by
      rw [div_eq_mul_inv]
      congr 1
      norm_num]
    rw [floatRound_scale 53 (by norm_num) _ hdiffpos (-64:ℤ)]
    rw [show floatRound 53
          (floatRound 53 (0.7856455:ℚ) - floatRound 53 (0.7340665:ℚ))
          * 2^(-64:ℤ) / 2
        = floatRound 53
          (floatRound 53 (0.7856455:ℚ) - floatRound 53 (0.7340665:ℚ))
          * 2^(-65:ℤ) from by
      rw [mul_div_assoc]
      congr 1
      norm_num]
    rw [floatRound_scale 53 (by norm_num) _ hdiffpos (-65:ℤ), hc0eq, hyl, hyh]
  rw [hcoords]
  show (m:ℚ) * 2^(-55:ℤ) - (m:ℚ) * 2^(-55:ℤ)
      ≠ (floatRound 53 (-0.7340665:ℚ) - floatRound 53 (-0.7856455:ℚ))
        / 18446744073709551616
  rw [hxdiff, sub_self]
  exact ne_of_lt (div_pos hdiffpos (by norm_num))

/-- C9 (amended): for every preset and positive aspect ratio, the
exact-arithmetic evaluation of the preset formulas (`Location.coordsExact`)
returns bounds whose y-span equals the x-span divided by the aspect ratio
and which are vertically centered on the preset's fixed `cy`; the
`f64`-evaluated `Location::coords` satisfies these identities only up to
rounding, and violates them outright at aspect `2^64`
(`location_coords_span_counterexample`). -/
theorem location_coordsExact_span_center (loc : Location) (aspect : ℚ)
    (haspect : 0 < aspect) :
    (loc.coordsExact aspect).2.2.2 - (loc.coordsExact aspect).2.2.1
      = ((loc.coordsExact aspect).2.1 - (loc.coordsExact aspect).1) / aspect ∧
    ((loc.coordsExact aspect).2.2.1 + (loc.coordsExact aspect).2.2.2) / 2
      = loc.center := by
  have ha : aspect ≠ 0 := ne_of_gt haspect
  cases loc <;>
    (constructor <;>
      (simp only [Location.coordsExact, Location.center]; field_simp; ring))

/-- Witness for C9's amended statement: Seahorse preset at aspect ratio `2`. -/
theorem location_coordsExact_span_center_witness :
    ((Location.Seahorse.coordsExact 2).2.2.2 - (Location.Seahorse.coordsExact 2).2.2.1
      = ((Location.Seahorse.coordsExact 2).2.1 - (Location.Seahorse.coordsExact 2).1) / 2) ∧
    (((Location.Seahorse.coordsExact 2).2.2.1 + (Location.Seahorse.coordsExact 2).2.2.2) / 2
      = Location.Seahorse.center) :=
  location_coordsExact_span_center Location.Seahorse 2 (by norm_num)
/-- `f 0 ++ f 1 ++ ⋯ ++ f (n-1)`: the buffer regions written by `n` successive
loop iterations.  `calc_mandelbrot` allocates one flat `vec![0; width*height]`
and hands each row (`par_chunks_mut(width)`) to one rayon task; since the row
slices are disjoint and each entry is written exactly once, the finished
buffer is the concatenation of the rows, independent of scheduling. -/
def concatRange (f : ℕ → List ℕ) : ℕ → List ℕ
  | 0 => []
  | n + 1 => concatRange f n ++ f n

/-- The four-lane coordinate pack of chunk `k` in a row:
`cx4 = x_min4 + (x_base + [0,1,2,3]) * dx4` with `x_base = 4k`, and the row's
constant `cy` in every imaginary lane. -/
def chunkC (x_min dx cy : ℚ) (k : ℕ) : Complex4 :=
  { real := fun l => x_min + (((4 * k : ℕ) : ℚ) + (l.val : ℚ)) * dx
    imag := fun _ => cy }

/-- The four buffer entries `chunk[0..3] = results[0..3]` written by chunk `k`
of a row. -/
def chunkList (iters : ℕ) (x_min dx cy : ℚ) (k : ℕ) : List ℕ :=
  [mandelbrot_at_vec (chunkC x_min dx cy k) iters 0,
   mandelbrot_at_vec (chunkC x_min dx cy k) iters 1,
   mandelbrot_at_vec (chunkC x_min dx cy k) iters 2,
   mandelbrot_at_vec (chunkC x_min dx cy k) iters 3]

/-- The single buffer entry written for trailing column `4 * (width / 4) + j`
by the remainder loop of a row. -/
def remList (iters : ℕ) (x_min dx cy : ℚ) (width j : ℕ) : List ℕ :=
  [mandelbrot_at_point (x_min + ((4 * (width / 4) + j : ℕ) : ℚ) * dx) cy iters]

/-- One row of `calc_mandelbrot`: `width / 4` four-lane chunks written from
`results[0..3]` in increasing column order, then the `width % 4` trailing
columns computed by the scalar evaluator at `cx = x_min + x * dx`. -/
def calc_row (iters : ℕ) (x_min dx cy : ℚ) (width : ℕ) : List ℕ :=
  concatRange (chunkList iters x_min dx cy) (width / 4)
  ++ concatRange (remList iters x_min dx cy width) (width % 4)

/-- `calc_mandelbrot(iters, x_min, x_max, y_min, y_max, width, height)`:
`dx = (x_max - x_min) / width`, `dy = (y_max - y_min) / height`, and row `y`
is computed at `cy = y_min + y * dy`. -/
def calc_mandelbrot (iters : ℕ) (x_min x_max y_min y_max : ℚ)
    (width height : ℕ) : List ℕ :=
  concatRange (fun y =>
    calc_row iters x_min ((x_max - x_min) / (width : ℚ))
      (y_min + (y : ℚ) * ((y_max - y_min) / (height : ℚ))) width) height

lemma concatRange_length (f : ℕ → List ℕ) (L : ℕ) (h : ∀ i, (f i).length = L) :
    ∀ n, (concatRange f n).length = n * L := by
  intro n
  induction n with
  | zero => simp [concatRange]
  | succ n ih => simp [concatRange, ih, h, Nat.succ_mul]

lemma concatRange_getD (f : ℕ → List ℕ) (L : ℕ) (h : ∀ i, (f i).length = L) :
    ∀ n q r, q < n → r < L →
      (concatRange f n).getD (q * L + r) 0 = (f q).getD r 0 := by
  intro n
  induction n with
  | zero => omega
  | succ n ih =>
    intro q r hq hr
    show (concatRange f n ++ f n).getD (q * L + r) 0 = (f q).getD r 0
    rcases Nat.lt_succ_iff_lt_or_eq.mp hq with hlt | heq
    · have hmul : q * L + L ≤ n * L := by
        have h1 : (q + 1) * L ≤ n * L := Nat.mul_le_mul_right L (by omega)
        rwa [Nat.add_mul, Nat.one_mul] at h1
      have hidx : q * L + r < (concatRange f n).length := by
        rw [concatRange_length f L h n]
        omega
      rw [List.getD_append _ _ _ _ hidx]
      exact ih q r hlt hr
    · subst heq
      have hlen : (concatRange f q).length ≤ q * L + r := by
        rw [concatRange_length f L h q]
        omega
      rw [List.getD_append_right _ _ _ _ hlen, concatRange_length f L h q,
        Nat.add_sub_cancel_left]

lemma mem_concatRange (f : ℕ → List ℕ) :
    ∀ n v, v ∈ concatRange f n → ∃ i, i < n ∧ v ∈ f i := by
  intro n
  induction n with
  | zero => intro v hv; exact absurd hv (List.not_mem_nil v)
  | succ n ih =>
    intro v hv
    rcases List.mem_append.mp hv with h | h
    · obtain ⟨i, hi, hmem⟩ := ih v h
      exact ⟨i, by omega, hmem⟩
    · exact ⟨n, by omega, h⟩

lemma chunkList_length (iters : ℕ) (x_min dx cy : ℚ) (k : ℕ) :
    (chunkList iters x_min dx cy k).length = 4 := rfl

lemma remList_length (iters : ℕ) (x_min dx cy : ℚ) (width j : ℕ) :
    (remList iters x_min dx cy width j).length = 1 := rfl

lemma calc_row_length (iters : ℕ) (x_min dx cy : ℚ) (width : ℕ) :
    (calc_row iters x_min dx cy width).length = width := by
  rw [calc_row, List.length_append,
    concatRange_length _ 4 (chunkList_length iters x_min dx cy),
    concatRange_length _ 1 (remList_length iters x_min dx cy width)]
  omega

/-- The value claimed for column `x` of a row: a lane of the four-wide
evaluation of chunk `x / 4` for the batched columns, the scalar evaluation at
`cx = x_min + x * dx` for the trailing columns. -/
def expectedPixel (iters : ℕ) (x_min dx cy : ℚ) (width x : ℕ) : ℕ :=
  if x < width / 4 * 4 then
    mandelbrot_at_vec (chunkC x_min dx cy (x / 4)) iters
      ⟨x % 4, Nat.mod_lt x (by norm_num)⟩
  else
    mandelbrot_at_point (x_min + (x : ℚ) * dx) cy iters

lemma chunkList_getD (iters : ℕ) (x_min dx cy : ℚ) (k r : ℕ) (hr : r < 4) :
    (chunkList iters x_min dx cy k).getD r 0
      = mandelbrot_at_vec (chunkC x_min dx cy k) iters ⟨r, hr⟩ := by
  interval_cases r <;> rfl

lemma calc_row_getD (iters : ℕ) (x_min dx cy : ℚ) (width x : ℕ)
    (hx : x < width) :
    (calc_row iters x_min dx cy width).getD x 0
      = expectedPixel iters x_min dx cy width x := by
  rw [calc_row]
  by_cases hchunk : x < width / 4 * 4
  · have hidx : x < (concatRange (chunkList iters x_min dx cy) (width / 4)).length := by
      rw [concatRange_length _ 4 (chunkList_length iters x_min dx cy)]
      omega
    rw [List.getD_append _ _ _ _ hidx]
    have hsplit := concatRange_getD (chunkList iters x_min dx cy) 4
      (chunkList_length iters x_min dx cy)
      (width / 4) (x / 4) (x % 4) (by omega) (by omega)
    rw [show x / 4 * 4 + x % 4 = x by omega] at hsplit
    rw [hsplit, expectedPixel, if_pos hchunk,
      chunkList_getD iters x_min dx cy (x / 4) (x % 4) (Nat.mod_lt x (by norm_num))]
  · have hlen : (concatRange (chunkList iters x_min dx cy) (width / 4)).length ≤ x := by
      rw [concatRange_length _ 4 (chunkList_length iters x_min dx cy)]
      omega
    rw [List.getD_append_right _ _ _ _ hlen,
      concatRange_length _ 4 (chunkList_length iters x_min dx cy)]
    have hrem := concatRange_getD (remList iters x_min dx cy width) 1
      (remList_length iters x_min dx cy width)
      (width % 4) (x - width / 4 * 4) 0 (by omega) (by omega)
    rw [show (x - width / 4 * 4) * 1 + 0 = x - width / 4 * 4 by omega] at hrem
    rw [hrem]
    show mandelbrot_at_point
        (x_min + ((4 * (width / 4) + (x - width / 4 * 4) : ℕ) : ℚ) * dx) cy iters
      = expectedPixel iters x_min dx cy width x
    rw [show 4 * (width / 4) + (x - width / 4 * 4) = x by omega,
      expectedPixel, if_neg hchunk]
/-- C6: for every bounds, `width ≥ 1`, `height ≥ 1` and budget, the buffer
returned by `calc_mandelbrot` has exactly `width × height` entries; the entry
at index `y·width + x` is the escape count computed for pixel `(x, y)` —
within each row, columns below `4·(width/4)` are consumed four at a time in
increasing order by the lane-batched evaluator (pixel `x` being lane `x % 4`
of chunk `x / 4`) and the trailing `width mod 4` columns by the scalar
evaluator — and the coordinate evaluated for column `x` is
`cx = x_min + x·dx`, `cy = y_min + y·dy` with `dx = (x_max-x_min)/width`,
`dy = (y_max-y_min)/height`.  Each position arises once, from the
concatenation of disjoint rows and chunks. -/
theorem calc_mandelbrot_buffer_layout (iters : ℕ) (x_min x_max y_min y_max : ℚ)
    (width height x y : ℕ) (_hw : 1 ≤ width) (_hh : 1 ≤ height)
    (hx : x < width) (hy : y < height) :
    (calc_mandelbrot iters x_min x_max y_min y_max width height).length
        = width * height ∧
    (calc_mandelbrot iters x_min x_max y_min y_max width height).getD
        (y * width + x) 0
      = expectedPixel iters x_min ((x_max - x_min) / (width : ℚ))
          (y_min + (y : ℚ) * ((y_max - y_min) / (height : ℚ))) width x ∧
    (chunkC x_min ((x_max - x_min) / (width : ℚ))
          (y_min + (y : ℚ) * ((y_max - y_min) / (height : ℚ))) (x / 4)).real
        ⟨x % 4, Nat.mod_lt x (by norm_num)⟩
      = x_min + (x : ℚ) * ((x_max - x_min) / (width : ℚ)) := by
  have hrowlen : ∀ i : ℕ,
      (calc_row iters x_min ((x_max - x_min) / (width : ℚ))
        (y_min + (i : ℚ) * ((y_max - y_min) / (height : ℚ))) width).length = width :=
    fun i => calc_row_length iters x_min _ _ width
  refine ⟨?_, ?_, ?_⟩
  · rw [calc_mandelbrot, concatRange_length _ width hrowlen, Nat.mul_comm]
  · rw [calc_mandelbrot, concatRange_getD _ width hrowlen height y x hy hx]
    exact calc_row_getD iters x_min _ _ width x hx
  · show x_min + (((4 * (x / 4) : ℕ) : ℚ)
        + (((⟨x % 4, Nat.mod_lt x (by norm_num)⟩ : Fin 4) : ℕ) : ℚ))
          * ((x_max - x_min) / (width : ℚ))
      = x_min + (x : ℚ) * ((x_max - x_min) / (width : ℚ))
    have hcast : (((4 * (x / 4) : ℕ) : ℚ)
        + (((⟨x % 4, Nat.mod_lt x (by norm_num)⟩ : Fin 4) : ℕ) : ℚ))
        = ((4 * (x / 4) + x % 4 : ℕ) : ℚ) := by
      push_cast
      ring
    rw [hcast, show (4 * (x / 4) + x % 4 : ℕ) = x by omega]

/-- Witness for C6: a 5×1 raster on `[0,1] × [0,1]` with budget 1, at the
trailing pixel `(4, 0)`. -/
theorem calc_mandelbrot_buffer_layout_witness :
    (calc_mandelbrot 1 0 1 0 1 5 1).length = 5 * 1 ∧
    (calc_mandelbrot 1 0 1 0 1 5 1).getD (0 * 5 + 4) 0
      = expectedPixel 1 0 ((1 - 0) / ((5 : ℕ) : ℚ))
          (0 + ((0 : ℕ) : ℚ) * ((1 - 0) / ((1 : ℕ) : ℚ))) 5 4 := by
  have h := calc_mandelbrot_buffer_layout 1 0 1 0 1 5 1 4 0
    (by norm_num) (by norm_num) (by norm_num) (by norm_num)
  exact ⟨h.1, h.2.1⟩

/-- C7: both evaluators return counts bounded by the iteration budget, and in
consequence every entry of the buffer returned by `calc_mandelbrot` lies in
`[0, iters]`. -/
theorem calc_mandelbrot_counts_le_budget (iters : ℕ) (x_min x_max y_min y_max : ℚ)
    (width height : ℕ) :
    (∀ cx cy : ℚ, mandelbrot_at_point cx cy iters ≤ iters) ∧
    (∀ (c : Complex4) (l : Fin 4), mandelbrot_at_vec c iters l ≤ iters) ∧
    ∀ v ∈ calc_mandelbrot iters x_min x_max y_min y_max width height,
      v ≤ iters := by
  have hpoint : ∀ cx cy : ℚ, mandelbrot_at_point cx cy iters ≤ iters :=
    fun cx cy => (mandelbrot_at_point_spec cx cy iters).1
  have hvec : ∀ (c : Complex4) (l : Fin 4), mandelbrot_at_vec c iters l ≤ iters := by
    intro c l
    rw [mandelbrot_at_vec_eq]
    calc (∑ j ∈ Finset.range iters, if normSqr (laneOrbit c l j) ≤ 4 then 1 else 0)
        ≤ ∑ _j ∈ Finset.range iters, 1 :=
          Finset.sum_le_sum (fun j _ => by split <;> omega)
      _ = iters := by simp
  refine ⟨hpoint, hvec, ?_⟩
  intro v hv
  rw [calc_mandelbrot] at hv
  obtain ⟨yy, -, hrow⟩ := mem_concatRange _ _ v hv
  rw [calc_row] at hrow
  rcases List.mem_append.mp hrow with h | h
  · obtain ⟨k, -, hk⟩ := mem_concatRange _ _ v h
    rw [chunkList] at hk
    simp only [List.mem_cons, List.not_mem_nil, or_false] at hk
    rcases hk with rfl | rfl | rfl | rfl <;> exact hvec _ _
  · obtain ⟨j, -, hj⟩ := mem_concatRange _ _ v h
    rw [remList] at hj
    simp only [List.mem_cons, List.not_mem_nil, or_false] at hj
    rw [hj]
    exact hpoint _ _

/-- Witness for C7: budget 1, 4×1 raster on `[0,1] × [0,1]`; the buffer is
`[1, 1, 1, 1]` and each entry is at most the budget. -/
theorem calc_mandelbrot_counts_le_budget_witness :
    mandelbrot_at_point 0 0 1 ≤ 1 ∧
    mandelbrot_at_vec (splat4 0 0) 1 0 ≤ 1 ∧
    (1 : ℕ) ≤ 1 := by
  have h := calc_mandelbrot_counts_le_budget 1 0 1 0 1 4 1
  refine ⟨h.1 0 0, h.2.1 (splat4 0 0) 0, h.2.2 1 ?_⟩
  show (1 : ℕ) ∈ calc_mandelbrot 1 0 1 0 1 4 1
  norm_num [calc_mandelbrot, calc_row, concatRange, chunkList, remList,
    mandelbrot_at_vec, vecLoop, chunkC, lane, normSqr, step4,
    Fin.forall_fin_succ, List.mem_append]

/-- C10: with `height = 0` (and any `width ≥ 1`, budget and finite bounds),
`calc_mandelbrot` totalizes to the empty buffer of length `0`: the row loop
runs zero times and the initially empty allocation is returned unchanged. -/
theorem calc_mandelbrot_height_zero (iters : ℕ) (x_min x_max y_min y_max : ℚ)
    (width : ℕ) (_hw : 1 ≤ width) :
    calc_mandelbrot iters x_min x_max y_min y_max width 0 = [] ∧
    (calc_mandelbrot iters x_min x_max y_min y_max width 0).length = 0 :=
  ⟨rfl, rfl⟩

/-- Witness for C10 at `width = 3840` and the default bounds. -/
theorem calc_mandelbrot_height_zero_witness :
    calc_mandelbrot 1000 (-2) 1 (-0.84375) 0.84375 3840 0 = [] :=
  (calc_mandelbrot_height_zero 1000 (-2) 1 (-0.84375) 0.84375 3840
    (by norm_num)).1
end Mandel
